import Mathlib

/-!
# FLAM-CANVA — collaborative canvas server, shallow embedding

Embedding of the server-side core of the FLAM-CANVA repository:

* `DrawingManager` (src/unnamed/part_000, duplicated inside src/server.js):
  per-room action log `strokes`, redo stack `undoneStrokes`, map of
  in-progress strokes `currentStrokes`, and a `version` counter.
* `RoomManager` (src/roomManager.js / src/server.js): identity registry,
  room membership, capacity check.
* The socket handlers of `CollaborativeCanvasServer` (src/server.js) that
  mutate state directly: `handleDrawShape`, `handleFillArea`,
  `handleAddText`, `handleAddImage` (which push onto `strokes` without
  going through the `DrawingManager`), and `handleDisconnect`.

JavaScript objects are heap references, and `addStrokePoint` mutates a
stroke object that is simultaneously referenced from `currentStrokes`
and from the `strokes` log.  To capture that aliasing faithfully the
state carries an explicit `heap : List Action` (object store, index =
object identity); the log, the redo stack and the in-progress map hold
indices into the heap.  JavaScript `Map`s are association lists whose
`set` replaces an existing key in place and appends otherwise; `Set`s
are duplicate-free lists.  Sources of nondeterminism (random ids,
random colors, `Date.now()`) are passed in as explicit arguments.
-/

namespace FlamCanva

/-- A 2-D point payload carried by drawing messages. -/
structure Point where
  x : Int
  y : Int
  deriving DecidableEq

/-- The `type` tag a JS action object carries (`'stroke'`, `'shape'`,
`'fill'`, `'text'`, `'image'`, `'clear'`). -/
inductive ActionKind where
  | stroke
  | shape
  | fill
  | text
  | image
  | clear
  deriving DecidableEq

/-- One entry of the action log.  Strokes populate `points`; discrete
actions (shape/fill/text/image/clear) arrive fully formed and keep
`points` empty.  `timestamp` stands for the JS `Date` fields. -/
structure Action where
  id : String
  userId : String
  kind : ActionKind
  points : List Point
  color : String
  width : Nat
  tool : String
  timestamp : Nat
  deriving DecidableEq

/-- The payload of a `draw-start` message: the seed point plus the
optional fields `startStroke` reads (`strokeId`, `color`, `width`,
`tool`), each defaulted by `||` in the source when absent. -/
structure StartPoint where
  point : Point
  strokeId : Option String
  color : Option String
  width : Option Nat
  tool : Option String
  deriving DecidableEq

/-- `Map.get` on an association list: the binding of the key, `none`
when absent. -/
def mget {α : Type} (m : List (String × α)) (k : String) : Option α :=
  match m with
  | [] => none
  | e :: rest => if e.1 = k then some e.2 else mget rest k

/-- `Map.set`: replace the key's binding in place when present, append
otherwise (JS `Map` insertion-order semantics; keys are unique). -/
def mset {α : Type} (m : List (String × α)) (k : String) (v : α) :
    List (String × α) :=
  match m with
  | [] => [(k, v)]
  | e :: rest => if e.1 = k then (k, v) :: rest else e :: mset rest k v

/-- `Map.delete`: remove the key's binding, a no-op when absent. -/
def mdelete {α : Type} (m : List (String × α)) (k : String) :
    List (String × α) :=
  match m with
  | [] => []
  | e :: rest => if e.1 = k then rest else e :: mdelete rest k

/-- Per-room drawing state (`roomStates` entry in `DrawingManager`).
`heap` is the object store; `strokes`, `undoneStrokes` and the range of
`currentStrokes` are heap indices, so that in-place mutation of a stroke
is visible through every structure that references it, as in JS. -/
structure RoomState where
  heap : List Action
  strokes : List Nat
  undoneStrokes : List Nat
  currentStrokes : List (String × Nat)
  version : Nat
  deriving DecidableEq

/-- The state `initializeDefaultRoom` / `getRoomState` installs for a
fresh room. -/
def initRoomState : RoomState :=
  { heap := [], strokes := [], undoneStrokes := [], currentStrokes := [],
    version := 1 }

/-- `DrawingManager.startStroke`: build a stroke from the seed point
(defaulting id/color/width/tool), store it in `currentStrokes[userId]`,
push it onto `strokes`, clear the redo stack, bump the version.
`freshId` stands for the generated random id, `now` for `Date.now()`.
Returns the created stroke. -/
def startStroke (s : RoomState) (userId : String) (sp : StartPoint)
    (freshId : String) (now : Nat) : RoomState × Action :=
  let stroke : Action :=
    { id := sp.strokeId.getD freshId
      userId := userId
      kind := ActionKind.stroke
      points := [sp.point]
      color := sp.color.getD "#000000"
      width := sp.width.getD 3
      tool := sp.tool.getD "pencil"
      timestamp := now }
  ({ heap := s.heap ++ [stroke]
     strokes := s.strokes ++ [s.heap.length]
     undoneStrokes := []
     currentStrokes := mset s.currentStrokes userId s.heap.length
     version := s.version + 1 }, stroke)

/-- `DrawingManager.addStrokePoint`: look up the author's in-progress
stroke; if absent return `none` with no mutation; otherwise append the
point to the stroke object in place (visible through the log, which
aliases it) and bump the version, returning `{strokeId, point}`. -/
def addStrokePoint (s : RoomState) (userId : String) (p : Point) :
    RoomState × Option (String × Point) :=
  match mget s.currentStrokes userId with
  | none => (s, none)
  | some r =>
    match s.heap.get? r with
    | none => (s, none)
    | some stroke =>
      ({ s with
          heap := s.heap.set r { stroke with points := stroke.points ++ [p] }
          version := s.version + 1 },
       some (stroke.id, p))

/-- `DrawingManager.endStroke`: drop the author's in-progress entry
(no-op delete if absent) and bump the version. -/
def endStroke (s : RoomState) (userId : String) : RoomState :=
  { s with currentStrokes := mdelete s.currentStrokes userId
           version := s.version + 1 }

/-- `DrawingManager.clearCanvas`: append a synthetic `clear` action
(author `system`), clear the redo stack, bump the version. -/
def clearCanvas (s : RoomState) (now : Nat) : RoomState :=
  let a : Action :=
    { id := "clear-" ++ toString now, userId := "system",
      kind := ActionKind.clear, points := [], color := "", width := 0,
      tool := "", timestamp := now }
  { s with heap := s.heap ++ [a]
           strokes := s.strokes ++ [s.heap.length]
           undoneStrokes := []
           version := s.version + 1 }

/-- `DrawingManager.undo`: if the log is non-empty pop its tail onto
the redo stack and bump the version, returning the popped action
(as its heap reference); otherwise return `none` unchanged. -/
def undo (s : RoomState) : RoomState × Option Nat :=
  match s.strokes.getLast? with
  | none => (s, none)
  | some r =>
    ({ s with strokes := s.strokes.dropLast
              undoneStrokes := s.undoneStrokes ++ [r]
              version := s.version + 1 }, some r)

/-- `DrawingManager.redo`: if the redo stack is non-empty pop its tail
back onto the log and bump the version, returning the restored action
(as its heap reference); otherwise return `none` unchanged. -/
def redo (s : RoomState) : RoomState × Option Nat :=
  match s.undoneStrokes.getLast? with
  | none => (s, none)
  | some r =>
    ({ s with strokes := s.strokes ++ [r]
              undoneStrokes := s.undoneStrokes.dropLast
              version := s.version + 1 }, some r)

/-- The discrete-add path of the socket handlers `handleDrawShape`,
`handleFillArea`, `handleAddText`, `handleAddImage` (src/server.js):
build the action (spread payload plus `userId`/`type`/`timestamp`) and
push it directly onto `roomState.strokes`.  These handlers bypass the
`DrawingManager`: they touch neither `version` nor `undoneStrokes`. -/
def appendDiscreteAction (s : RoomState) (a : Action) : RoomState :=
  { s with heap := s.heap ++ [a]
           strokes := s.strokes ++ [s.heap.length] }

/-- `undo` iterated `n` times (state component only). -/
def undoN (s : RoomState) : Nat → RoomState
  | 0 => s
  | n + 1 => undoN (undo s).1 n

/-- `redo` iterated `n` times (state component only). -/
def redoN (s : RoomState) : Nat → RoomState
  | 0 => s
  | n + 1 => redoN (redo s).1 n

/-- The sequence of actions the log denotes (refs resolved through the
heap). -/
def logActions (s : RoomState) : List Action :=
  s.strokes.filterMap (fun r => s.heap.get? r)

/-- A registered user record (`RoomManager.addUser`).  The cursor is a
point; `joinedAt` stands for the JS `Date`. -/
structure User where
  id : String
  color : String
  cursor : Point
  roomId : String
  joinedAt : Nat
  name : String
  isGuest : Bool
  deriving DecidableEq

/-- A room of the registry: membership is a JS `Set` of socket ids
(duplicate-free list, insertion order), `maxUsers` the capacity from
`settings`. -/
structure Room where
  id : String
  memberIds : List String
  createdAt : Nat
  maxUsers : Nat
  deriving DecidableEq

/-- The `RoomManager`'s mutable state: `rooms` and `users` maps. -/
structure RegistryState where
  rooms : List (String × Room)
  users : List (String × User)
  deriving DecidableEq

/-- `Set.add`: append if absent, otherwise unchanged. -/
def setAdd (l : List String) (x : String) : List String :=
  if l.contains x then l else l ++ [x]

/-- The outcome of `RoomManager.addUser`, which throws on an unknown or
full room. -/
inductive JoinError where
  | roomNotFound
  | roomFull
  deriving DecidableEq

/-- `RoomManager.addUser`: throw `roomNotFound` if the room is unknown,
throw `roomFull` if `users.size >= settings.maxUsers` — both before any
mutation — otherwise build the user record, register it in the global
`users` map and the room's member set, and return it.  `color`, `name`
and `now` stand for the random palette draw, the random guest name and
`Date.now()`. -/
def addUser (st : RegistryState) (socketId roomId : String)
    (color name : String) (now : Nat) :
    RegistryState × Except JoinError User :=
  match mget st.rooms roomId with
  | none => (st, Except.error JoinError.roomNotFound)
  | some room =>
    if room.maxUsers ≤ room.memberIds.length then
      (st, Except.error JoinError.roomFull)
    else
      let user : User :=
        { id := socketId, color := color, cursor := { x := 0, y := 0 },
          roomId := roomId, joinedAt := now, name := name, isGuest := true }
      ({ rooms := mset st.rooms roomId
            { room with memberIds := setAdd room.memberIds socketId }
         users := mset st.users socketId user },
       Except.ok user)

/-- `RoomManager.removeUser`: idempotent; if the socket id is known,
drop it from its room's member set (when that room still exists) and
from the global `users` map; an unknown id is a no-op. -/
def removeUser (st : RegistryState) (socketId : String) : RegistryState :=
  match mget st.users socketId with
  | none => st
  | some user =>
    let rooms :=
      match mget st.rooms user.roomId with
      | none => st.rooms
      | some room =>
        mset st.rooms user.roomId
          { room with memberIds := room.memberIds.filter (fun m => ¬ m = socketId) }
    { rooms := rooms, users := mdelete st.users socketId }

/-- `RoomManager.updateUserName`: if the socket id is registered,
overwrite `name` and set `isGuest := false`, returning the updated
record; otherwise return `none`.  Nothing guards against repeated
renames. -/
def updateUserName (st : RegistryState) (socketId name : String) :
    RegistryState × Option User :=
  match mget st.users socketId with
  | none => (st, none)
  | some user =>
    let u := { user with name := name, isGuest := false }
    ({ st with users := mset st.users socketId u }, some u)

/-- `RoomManager.getRoomUsers`: `[]` for an unknown room; otherwise map
each member id through the `users` map and `filter(Boolean)` the
missing ones — i.e. `filterMap`. -/
def getRoomUsers (st : RegistryState) (roomId : String) : List User :=
  match mget st.rooms roomId with
  | none => []
  | some room => room.memberIds.filterMap (fun uid => mget st.users uid)

/-- The server's combined mutable state: the registry plus the drawing
state of the (single, `default`) room the socket handlers use. -/
structure ServerState where
  reg : RegistryState
  draw : RoomState
  deriving DecidableEq

/-- `CollaborativeCanvasServer.handleDisconnect`: call
`roomManager.removeUser` and broadcast `user-left`.  The
`DrawingManager`'s state — in particular `currentStrokes` — is not
touched. -/
def handleDisconnect (st : ServerState) (socketId : String) : ServerState :=
  { st with reg := removeUser st.reg socketId }

/-- One socket-handler mutation of a room's drawing state, as dispatched
by `setupSocketHandlers` (src/server.js): the six `DrawingManager`
operations plus the direct discrete-add path of the shape/fill/text/
image handlers. -/
inductive Step : RoomState → RoomState → Prop where
  | start (s : RoomState) (u : String) (sp : StartPoint) (fid : String) (now : Nat) :
      Step s (startStroke s u sp fid now).1
  | point (s : RoomState) (u : String) (p : Point) :
      Step s (addStrokePoint s u p).1
  | stop (s : RoomState) (u : String) :
      Step s (endStroke s u)
  | clearC (s : RoomState) (now : Nat) :
      Step s (clearCanvas s now)
  | discrete (s : RoomState) (a : Action) :
      Step s (appendDiscreteAction s a)
  | undoS (s : RoomState) :
      Step s (undo s).1
  | redoS (s : RoomState) :
      Step s (redo s).1

/-- Room states reachable from the freshly initialized room through the
socket handlers. -/
def Reachable (s : RoomState) : Prop :=
  Relation.ReflTransGen Step initRoomState s

/-- Structural well-formedness of a room state: every reference held by
the log, the redo stack or an in-progress entry points into the heap,
and the in-progress map binds each author at most once. -/
def WF (s : RoomState) : Prop :=
  (∀ r ∈ s.strokes, r < s.heap.length) ∧
  (∀ r ∈ s.undoneStrokes, r < s.heap.length) ∧
  (∀ e ∈ s.currentStrokes, e.2 < s.heap.length) ∧
  (s.currentStrokes.map Prod.fst).Nodup

/-- A sample message point. -/
def samplePoint : Point := { x := 3, y := 4 }

/-- A second sample point. -/
def samplePoint2 : Point := { x := 5, y := 6 }

/-- A third sample point. -/
def samplePoint3 : Point := { x := 7, y := 8 }

/-- A sample `draw-start` payload carrying an explicit stroke id. -/
def sampleStart : StartPoint :=
  { point := samplePoint, strokeId := some "s1", color := none,
    width := none, tool := none }

/-- The stroke `startStroke` builds from `sampleStart` for author `u1`. -/
def sampleStroke : Action :=
  { id := "s1", userId := "u1", kind := ActionKind.stroke,
    points := [samplePoint], color := "#000000", width := 3,
    tool := "pencil", timestamp := 0 }

/-- A sample fully-formed shape action, as `handleDrawShape` builds. -/
def sampleShape : Action :=
  { id := "sh1", userId := "u2", kind := ActionKind.shape, points := [],
    color := "#ff4757", width := 2, tool := "rectangle", timestamp := 7 }

/-- Room state after `u1` started one stroke in a fresh room. -/
def stateB : RoomState := (startStroke initRoomState "u1" sampleStart "f1" 0).1

/-- `stateB` after an undo: the redo stack is non-empty. -/
def stateC : RoomState := (undo stateB).1

/-- The default room of `RoomManager.initializeDefaultRoom` (empty,
capacity 50). -/
def roomDefault : Room :=
  { id := "default", memberIds := [], createdAt := 0, maxUsers := 50 }

/-- The registry as `RoomManager`'s constructor leaves it. -/
def regInit : RegistryState :=
  { rooms := [("default", roomDefault)], users := [] }

/-- Registry after socket `X` joined the default room. -/
def regX : RegistryState :=
  (addUser regInit "X" "default" "#ff4757" "Artist1" 0).1

/-- The user record `addUser` builds for socket `X` in `regX`. -/
def sampleUserX : User :=
  { id := "X", color := "#ff4757", cursor := { x := 0, y := 0 },
    roomId := "default", joinedAt := 0, name := "Artist1", isGuest := true }

/-- Server state in which author `X` has started a stroke and appended
three points without ending it (the spec's disconnect scenario). -/
def serverC3 : ServerState :=
  { reg := regX
    draw :=
      (addStrokePoint
        (addStrokePoint
          (addStrokePoint
            (startStroke initRoomState "X" sampleStart "f1" 0).1
            "X" samplePoint).1
          "X" samplePoint2).1
        "X" samplePoint3).1 }

/-- Registry `regX` after a first rename of `X` to `Alice`. -/
def regRenamed1 : RegistryState := (updateUserName regX "X" "Alice").1

/-- `regRenamed1` after a second rename of `X` to `Bob`. -/
def regRenamed2 : RegistryState := (updateUserName regRenamed1 "X" "Bob").1

/-- A full room: capacity 1 with one member, used to exercise the
capacity check. -/
def roomFullSample : Room :=
  { id := "tiny", memberIds := ["A"], createdAt := 0, maxUsers := 1 }

/-- A registry holding the full room `tiny`. -/
def regFullSample : RegistryState :=
  { rooms := [("tiny", roomFullSample)], users := [] }

/-! ## Association-map lemmas -/

theorem mget_mset_self {α : Type} (m : List (String × α)) (k : String) (v : α) :
    mget (mset m k v) k = some v := by
  induction m with
  | nil => simp [mget, mset]
  | cons e m ih =>
    by_cases h : e.1 = k
    · simp [mget, mset, h]
    · simp [mget, mset, h, ih]

theorem mget_mset_ne {α : Type} (m : List (String × α)) (k k' : String) (v : α)
    (hne : ¬ k = k') : mget (mset m k v) k' = mget m k' := by
  induction m with
  | nil => simp [mget, mset, hne]
  | cons e m ih =>
    by_cases h : e.1 = k
    · simp [mget, mset, h, hne]
    · simp only [mset, if_neg h]
      by_cases h' : e.1 = k'
      · simp [mget, h']
      · simp [mget, h', ih]

theorem mget_eq_none_of_not_mem_keys {α : Type} {m : List (String × α)} {k : String}
    (h : k ∉ m.map Prod.fst) : mget m k = none := by
  induction m with
  | nil => rfl
  | cons e m ih =>
    simp only [List.map_cons, List.mem_cons] at h
    push_neg at h
    have hne : ¬ e.1 = k := fun hc => h.1 hc.symm
    simp only [mget, if_neg hne]
    exact ih h.2

theorem mget_mdelete_self {α : Type} (m : List (String × α)) (k : String)
    (hn : (m.map Prod.fst).Nodup) : mget (mdelete m k) k = none := by
  induction m with
  | nil => simp [mget, mdelete]
  | cons e m ih =>
    simp only [List.map_cons, List.nodup_cons] at hn
    by_cases h : e.1 = k
    · simp only [mdelete, if_pos h]
      subst h
      exact mget_eq_none_of_not_mem_keys hn.1
    · simp only [mdelete, if_neg h, mget, if_neg h]
      exact ih hn.2

theorem mem_mset {α : Type} {m : List (String × α)} {k : String} {v : α} {e : String × α}
    (h : e ∈ mset m k v) : e ∈ m ∨ e = (k, v) := by
  induction m with
  | nil => simp [mset] at h; simp [h]
  | cons f m ih =>
    by_cases hf : f.1 = k
    · simp only [mset, if_pos hf, List.mem_cons] at h
      rcases h with h | h
      · right; exact h
      · left; exact List.mem_cons_of_mem f h
    · simp only [mset, if_neg hf, List.mem_cons] at h
      rcases h with h | h
      · left; simp [h]
      · rcases ih h with h2 | h2
        · left; exact List.mem_cons_of_mem f h2
        · right; exact h2

theorem keys_nodup_mset {α : Type} {m : List (String × α)} (k : String) (v : α)
    (hn : (m.map Prod.fst).Nodup) : ((mset m k v).map Prod.fst).Nodup := by
  induction m with
  | nil => simp [mset]
  | cons e m ih =>
    simp only [List.map_cons, List.nodup_cons] at hn
    by_cases h : e.1 = k
    · simp only [mset, if_pos h, List.map_cons, List.nodup_cons]
      exact ⟨by rw [← h]; exact hn.1, hn.2⟩
    · simp only [mset, if_neg h, List.map_cons, List.nodup_cons]
      constructor
      · intro hc
        rcases List.mem_map.mp hc with ⟨x, hx, hex⟩
        rcases mem_mset hx with h2 | h2
        · exact hn.1 (List.mem_map.mpr ⟨x, h2, hex⟩)
        · rw [h2] at hex; exact h hex.symm
      · exact ih hn.2

theorem mdelete_sublist {α : Type} (m : List (String × α)) (k : String) :
    (mdelete m k).Sublist m := by
  induction m with
  | nil => simp [mdelete]
  | cons e m ih =>
    by_cases h : e.1 = k
    · simp only [mdelete, if_pos h]
      exact List.sublist_cons_self e m
    · simp only [mdelete, if_neg h]
      exact List.Sublist.cons₂ e ih

theorem keys_nodup_mdelete {α : Type} {m : List (String × α)} (k : String)
    (hn : (m.map Prod.fst).Nodup) : ((mdelete m k).map Prod.fst).Nodup :=
  List.Nodup.sublist (List.Sublist.map Prod.fst (mdelete_sublist m k)) hn

theorem mem_mdelete {α : Type} {m : List (String × α)} {k : String} {e : String × α}
    (h : e ∈ mdelete m k) : e ∈ m :=
  (mdelete_sublist m k).subset h

/-! ## Characterizations of the drawing operations -/

theorem addStrokePoint_no_entry (s : RoomState) (u : String) (p : Point)
    (h : mget s.currentStrokes u = none) :
    addStrokePoint s u p = (s, none) := by
  simp [addStrokePoint, h]

theorem addStrokePoint_entry (s : RoomState) (u : String) (p : Point) (r : Nat)
    (stroke : Action) (h1 : mget s.currentStrokes u = some r)
    (h2 : s.heap.get? r = some stroke) :
    addStrokePoint s u p =
      ({ s with
          heap := s.heap.set r { stroke with points := stroke.points ++ [p] }
          version := s.version + 1 },
       some (stroke.id, p)) := by
  have h2' : s.heap[r]? = some stroke := by
    rw [← List.get?_eq_getElem?]
    exact h2
  simp [addStrokePoint, h1, h2']

theorem undo_of_empty (s : RoomState) (h : s.strokes = []) :
    undo s = (s, none) := by
  simp [undo, h]

theorem undo_of_last (s : RoomState) (r : Nat) (h : s.strokes.getLast? = some r) :
    undo s =
      ({ s with strokes := s.strokes.dropLast
                undoneStrokes := s.undoneStrokes ++ [r]
                version := s.version + 1 }, some r) := by
  simp [undo, h]

theorem redo_of_empty (s : RoomState) (h : s.undoneStrokes = []) :
    redo s = (s, none) := by
  simp [redo, h]

theorem redo_of_last (s : RoomState) (r : Nat) (h : s.undoneStrokes.getLast? = some r) :
    redo s =
      ({ s with strokes := s.strokes ++ [r]
                undoneStrokes := s.undoneStrokes.dropLast
                version := s.version + 1 }, some r) := by
  simp [redo, h]

theorem redoN_shift (s : RoomState) (n : Nat) :
    redoN s (n + 1) = (redo (redoN s n)).1 := by
  induction n generalizing s with
  | zero => rfl
  | succ n ih =>
    show redoN (redo s).1 (n + 1) = _
    rw [ih]
    rfl

theorem undoN_redoN_restore (s : RoomState) (n : Nat) (h : n ≤ s.strokes.length) :
    redoN (undoN s n) n = { s with version := s.version + 2 * n } := by
  induction n generalizing s with
  | zero => simp [undoN, redoN]
  | succ n ih =>
    have hne : s.strokes ≠ [] := by
      intro hc; rw [hc] at h; simp at h
    obtain ⟨r, hr⟩ := Option.isSome_iff_exists.mp (List.getLast?_isSome.mpr hne)
    have hs1 : (undo s).1 =
        { s with strokes := s.strokes.dropLast
                 undoneStrokes := s.undoneStrokes ++ [r]
                 version := s.version + 1 } := by
      rw [undo_of_last s r hr]
    have hlen : n ≤ (undo s).1.strokes.length := by
      rw [hs1]
      simp only [List.length_dropLast]
      omega
    show redoN (undoN (undo s).1 n) (n + 1) = _
    rw [redoN_shift, ih _ hlen, hs1]
    have hred := redo_of_last
      { s with strokes := s.strokes.dropLast
               undoneStrokes := s.undoneStrokes ++ [r]
               version := s.version + 1 + 2 * n }
      r (by simp [List.getLast?_concat])
    simp only at hred
    rw [hred]
    simp only [List.dropLast_append_getLast? r hr, List.dropLast_concat]
    cases s
    simp only [RoomState.mk.injEq, and_true, true_and]
    omega

/-! ## Well-formedness of reachable room states -/

theorem mem_of_getLast?_eq {α : Type} {l : List α} {a : α} (h : l.getLast? = some a) :
    a ∈ l := by
  rcases List.mem_getLast?_eq_getLast (by simp [h] : a ∈ l.getLast?) with ⟨hne, he⟩
  rw [he]
  exact List.getLast_mem hne

theorem addStrokePoint_fields (s : RoomState) (u : String) (p : Point) :
    (addStrokePoint s u p).1.strokes = s.strokes ∧
    (addStrokePoint s u p).1.undoneStrokes = s.undoneStrokes ∧
    (addStrokePoint s u p).1.currentStrokes = s.currentStrokes ∧
    (addStrokePoint s u p).1.heap.length = s.heap.length := by
  unfold addStrokePoint
  cases hg : mget s.currentStrokes u with
  | none => simp
  | some r =>
    cases hh : s.heap[r]? with
    | none => simp [List.get?_eq_getElem?, hh]
    | some stroke => simp [List.get?_eq_getElem?, hh]

theorem wf_init : WF initRoomState := by
  refine ⟨?_, ?_, ?_, ?_⟩ <;> simp [initRoomState, WF]

theorem wf_step {s t : RoomState} (hs : WF s) (h : Step s t) : WF t := by
  obtain ⟨hst, hun, hcur, hnd⟩ := hs
  cases h with
  | start u sp fid now =>
    refine ⟨?_, ?_, ?_, ?_⟩
    · intro r hr
      simp only [startStroke, List.mem_append, List.mem_singleton] at hr
      simp only [startStroke, List.length_append, List.length_singleton]
      rcases hr with hr | hr
      · exact Nat.lt_succ_of_lt (hst r hr)
      · omega
    · intro r hr
      simp only [startStroke] at hr
      exact absurd hr (List.not_mem_nil r)
    · intro e he
      simp only [startStroke] at he ⊢
      simp only [List.length_append, List.length_singleton]
      rcases mem_mset he with h2 | h2
      · exact Nat.lt_succ_of_lt (hcur e h2)
      · rw [h2]; omega
    · simp only [startStroke]
      exact keys_nodup_mset _ _ hnd
  | point u p =>
    obtain ⟨f1, f2, f3, f4⟩ := addStrokePoint_fields s u p
    refine ⟨?_, ?_, ?_, ?_⟩
    · intro r hr
      rw [f1] at hr
      rw [f4]
      exact hst r hr
    · intro r hr
      rw [f2] at hr
      rw [f4]
      exact hun r hr
    · intro e he
      rw [f3] at he
      rw [f4]
      exact hcur e he
    · rw [f3]
      exact hnd
  | stop u =>
    refine ⟨hst, hun, ?_, ?_⟩
    · intro e he
      exact hcur e (mem_mdelete he)
    · exact keys_nodup_mdelete _ hnd
  | clearC now =>
    refine ⟨?_, ?_, ?_, hnd⟩
    · intro r hr
      simp only [clearCanvas, List.mem_append, List.mem_singleton] at hr
      simp only [clearCanvas, List.length_append, List.length_singleton]
      rcases hr with hr | hr
      · exact Nat.lt_succ_of_lt (hst r hr)
      · omega
    · intro r hr
      simp only [clearCanvas] at hr
      exact absurd hr (List.not_mem_nil r)
    · intro e he
      simp only [clearCanvas, List.length_append, List.length_singleton]
      exact Nat.lt_succ_of_lt (hcur e he)
  | discrete a =>
    refine ⟨?_, ?_, ?_, hnd⟩
    · intro r hr
      simp only [appendDiscreteAction, List.mem_append, List.mem_singleton] at hr
      simp only [appendDiscreteAction, List.length_append, List.length_singleton]
      rcases hr with hr | hr
      · exact Nat.lt_succ_of_lt (hst r hr)
      · omega
    · intro r hr
      simp only [appendDiscreteAction, List.length_append, List.length_singleton]
      exact Nat.lt_succ_of_lt (hun r hr)
    · intro e he
      simp only [appendDiscreteAction, List.length_append, List.length_singleton]
      exact Nat.lt_succ_of_lt (hcur e he)
  | undoS =>
    cases hg : s.strokes.getLast? with
    | none =>
      rw [List.getLast?_eq_none_iff] at hg
      rw [undo_of_empty s hg]
      exact ⟨hst, hun, hcur, hnd⟩
    | some r =>
      have hu := undo_of_last s r hg
      rw [hu]
      refine ⟨?_, ?_, hcur, hnd⟩
      · intro x hx
        exact hst x ((List.dropLast_sublist s.strokes).subset hx)
      · intro x hx
        rcases List.mem_append.mp hx with hx | hx
        · exact hun x hx
        · rw [List.mem_singleton.mp hx]
          exact hst r (mem_of_getLast?_eq hg)
  | redoS =>
    cases hg : s.undoneStrokes.getLast? with
    | none =>
      rw [List.getLast?_eq_none_iff] at hg
      rw [redo_of_empty s hg]
      exact ⟨hst, hun, hcur, hnd⟩
    | some r =>
      have hu := redo_of_last s r hg
      rw [hu]
      refine ⟨?_, ?_, hcur, hnd⟩
      · intro x hx
        rcases List.mem_append.mp hx with hx | hx
        · exact hst x hx
        · rw [List.mem_singleton.mp hx]
          exact hun r (mem_of_getLast?_eq hg)
      · intro x hx
        exact hun x ((List.dropLast_sublist s.undoneStrokes).subset hx)

theorem reachable_wf {s : RoomState} (h : Reachable s) : WF s := by
  induction h with
  | refl => exact wf_init
  | tail _ h2 ih => exact wf_step ih h2

/-! ## Further list and map lemmas -/

theorem get?_append_left {α : Type} (l l' : List α) (n : Nat) (h : n < l.length) :
    (l ++ l').get? n = l.get? n := by
  simp [List.get?_eq_getElem?, List.getElem?_append, h]

theorem get?_concat_len {α : Type} (l : List α) (a : α) :
    (l ++ [a]).get? l.length = some a := by
  rw [List.get?_eq_getElem?]
  exact List.getElem?_concat_length l a

theorem get?_set_self {α : Type} (l : List α) (n : Nat) (a : α) (h : n < l.length) :
    (l.set n a).get? n = some a := by
  simp [List.get?_eq_getElem?, List.getElem?_set_self, h]

theorem lt_length_of_get?_eq_some {α : Type} {l : List α} {n : Nat} {a : α}
    (h : l.get? n = some a) : n < l.length := by
  rw [List.get?_eq_getElem?] at h
  exact (List.getElem?_eq_some.mp h).1

theorem mem_of_mget {α : Type} {m : List (String × α)} {k : String} {v : α}
    (h : mget m k = some v) : (k, v) ∈ m := by
  induction m with
  | nil => simp [mget] at h
  | cons e m ih =>
    by_cases he : e.1 = k
    · simp only [mget, if_pos he, Option.some.injEq] at h
      rw [show e = (k, v) from Prod.ext he h]
      exact List.mem_cons_self (k, v) m
    · simp only [mget, if_neg he] at h
      exact List.mem_cons_of_mem e (ih h)

theorem length_filter_key_le_one {m : List (String × Nat)}
    (hn : (m.map Prod.fst).Nodup) (u : String) :
    (m.filter (fun e => e.1 = u)).length ≤ 1 := by
  induction m with
  | nil => simp
  | cons e m ih =>
    simp only [List.map_cons, List.nodup_cons] at hn
    by_cases h : e.1 = u
    · have hnil : m.filter (fun e => e.1 = u) = [] := by
        rw [List.filter_eq_nil_iff]
        intro x hx
        simp only [decide_eq_true_eq]
        intro hc
        exact hn.1 (List.mem_map.mpr ⟨x, hx, by rw [hc, h]⟩)
      simp [List.filter_cons, h, hnil]
    · have hskip : (e :: m).filter (fun e => e.1 = u) = m.filter (fun e => e.1 = u) := by
        simp [List.filter_cons, h]
      rw [hskip]
      exact ih hn.2

theorem startStroke_fields (s : RoomState) (u : String) (sp : StartPoint)
    (fid : String) (now : Nat) :
    (startStroke s u sp fid now).1.heap = s.heap ++ [(startStroke s u sp fid now).2] ∧
    (startStroke s u sp fid now).1.strokes = s.strokes ++ [s.heap.length] ∧
    (startStroke s u sp fid now).1.undoneStrokes = [] ∧
    (startStroke s u sp fid now).1.currentStrokes = mset s.currentStrokes u s.heap.length ∧
    (startStroke s u sp fid now).1.version = s.version + 1 := by
  refine ⟨rfl, rfl, rfl, rfl, rfl⟩

theorem addStrokePoint_dangling (s : RoomState) (u : String) (p : Point) (r : Nat)
    (h1 : mget s.currentStrokes u = some r) (h2 : s.heap.get? r = none) :
    addStrokePoint s u p = (s, none) := by
  have h2' : s.heap[r]? = none := by
    rw [← List.get?_eq_getElem?]
    exact h2
  simp [addStrokePoint, h1, h2']

/-! ## Claims -/

/-- C1 (counterexample): the discrete-add handlers (`handleDrawShape`
and its fill/text/image siblings) push the action onto the log without
touching `version`, so a discrete add does not increase the version by
1 as the claim states: in a fresh room a shape add leaves `version` at
its old value. -/
theorem discrete_add_version_unchanged :
    ¬ ((appendDiscreteAction initRoomState sampleShape).version =
        initRoomState.version + 1) := by
  decide

/-- C1 (amended): stroke start, point append on an existing in-progress
stroke, stroke end, clear, undo on a non-empty log and redo on a
non-empty redo stack each increase the room's version by exactly 1; a
discrete shape/fill/text/image add leaves the version unchanged (it
bypasses the `DrawingManager`); and no operation — including the
failure paths and disconnect handling — ever decreases the version. -/
theorem version_discipline (s : RoomState) (u : String) (sp : StartPoint)
    (fid : String) (now : Nat) (p : Point) (a : Action) (st : ServerState)
    (sid : String) :
    (startStroke s u sp fid now).1.version = s.version + 1 ∧
    (∀ r stroke, mget s.currentStrokes u = some r → s.heap.get? r = some stroke →
      (addStrokePoint s u p).1.version = s.version + 1) ∧
    (mget s.currentStrokes u = none → (addStrokePoint s u p).1.version = s.version) ∧
    (endStroke s u).version = s.version + 1 ∧
    (clearCanvas s now).version = s.version + 1 ∧
    (s.strokes ≠ [] → (undo s).1.version = s.version + 1) ∧
    (s.undoneStrokes ≠ [] → (redo s).1.version = s.version + 1) ∧
    (appendDiscreteAction s a).version = s.version ∧
    s.version ≤ (addStrokePoint s u p).1.version ∧
    s.version ≤ (undo s).1.version ∧
    s.version ≤ (redo s).1.version ∧
    (handleDisconnect st sid).draw.version = st.draw.version := by
  refine ⟨rfl, ?_, ?_, rfl, rfl, ?_, ?_, rfl, ?_, ?_, ?_, rfl⟩
  · intro r stroke h1 h2
    rw [addStrokePoint_entry s u p r stroke h1 h2]
  · intro h
    rw [addStrokePoint_no_entry s u p h]
  · intro h
    obtain ⟨r, hr⟩ := Option.isSome_iff_exists.mp (List.getLast?_isSome.mpr h)
    rw [undo_of_last s r hr]
  · intro h
    obtain ⟨r, hr⟩ := Option.isSome_iff_exists.mp (List.getLast?_isSome.mpr h)
    rw [redo_of_last s r hr]
  · cases hg : mget s.currentStrokes u with
    | none =>
      rw [addStrokePoint_no_entry s u p hg]
    | some r =>
      cases hh : s.heap.get? r with
      | none =>
        rw [addStrokePoint_dangling s u p r hg hh]
      | some stroke =>
        rw [addStrokePoint_entry s u p r stroke hg hh]
        exact Nat.le_succ _
  · cases hg : s.strokes.getLast? with
    | none =>
      rw [undo_of_empty s (List.getLast?_eq_none_iff.mp hg)]
    | some r =>
      rw [undo_of_last s r hg]
      exact Nat.le_succ _
  · cases hg : s.undoneStrokes.getLast? with
    | none =>
      rw [redo_of_empty s (List.getLast?_eq_none_iff.mp hg)]
    | some r =>
      rw [redo_of_last s r hg]
      exact Nat.le_succ _

/-- C1 (witness): the version discipline at concrete states — one
started stroke, a point append on it, an undo on a one-entry log, and a
redo after that undo, each bump the version by 1. -/
theorem version_discipline_witness :
    (startStroke stateB "u2" sampleStart "f2" 1).1.version = stateB.version + 1 ∧
    (addStrokePoint stateB "u1" samplePoint2).1.version = stateB.version + 1 ∧
    (undo stateB).1.version = stateB.version + 1 ∧
    (redo stateC).1.version = stateC.version + 1 :=
  ⟨(version_discipline stateB "u2" sampleStart "f2" 1 samplePoint2 sampleShape
      ⟨regInit, stateB⟩ "X").1,
   (version_discipline stateB "u1" sampleStart "f1" 0 samplePoint2 sampleShape
      ⟨regInit, stateB⟩ "X").2.1 0 sampleStroke (by decide) (by decide),
   (version_discipline stateB "u1" sampleStart "f1" 0 samplePoint2 sampleShape
      ⟨regInit, stateB⟩ "X").2.2.2.2.2.1 (by decide),
   (version_discipline stateC "u1" sampleStart "f1" 0 samplePoint2 sampleShape
      ⟨regInit, stateB⟩ "X").2.2.2.2.2.2.1 (by decide)⟩

/-- C2 (counterexample): a discrete shape add right after an undo does
not clear the redo stack, so the immediately following redo returns the
undone action rather than `none`. -/
theorem discrete_add_keeps_redo_stack :
    ¬ ((redo (appendDiscreteAction stateC sampleShape)).2 = none) := by
  decide

/-- C2 (amended): stroke start and clear reset the redo stack to empty,
so a redo issued immediately after either returns `none`; the discrete
shape/fill/text/image adds of the socket handlers leave the redo stack
exactly as it was. -/
theorem new_action_redo_stack (s : RoomState) (u : String) (sp : StartPoint)
    (fid : String) (now : Nat) (a : Action) :
    (startStroke s u sp fid now).1.undoneStrokes = [] ∧
    (clearCanvas s now).undoneStrokes = [] ∧
    (redo (startStroke s u sp fid now).1).2 = none ∧
    (redo (clearCanvas s now)).2 = none ∧
    (appendDiscreteAction s a).undoneStrokes = s.undoneStrokes := by
  refine ⟨rfl, rfl, ?_, ?_, rfl⟩
  · rw [redo_of_empty _ rfl]
  · rw [redo_of_empty _ rfl]

/-- C5: undo on a non-empty log removes exactly the last action, pushes
that same action (the same heap reference) onto the redo stack, bumps
the version and returns the removed action; undo on an empty log
returns `none` and leaves the whole room state unchanged. -/
theorem undo_pops_tail (s : RoomState) :
    (s.strokes = [] → undo s = (s, none)) ∧
    (∀ r, s.strokes.getLast? = some r →
      (undo s).1.strokes = s.strokes.dropLast ∧
      (undo s).1.strokes ++ [r] = s.strokes ∧
      (undo s).1.undoneStrokes = s.undoneStrokes ++ [r] ∧
      (undo s).1.version = s.version + 1 ∧
      (undo s).1.heap = s.heap ∧
      (undo s).1.currentStrokes = s.currentStrokes ∧
      (undo s).2 = some r) := by
  constructor
  · intro h
    exact undo_of_empty s h
  · intro r hr
    rw [undo_of_last s r hr]
    refine ⟨rfl, ?_, rfl, rfl, rfl, rfl, rfl⟩
    exact List.dropLast_append_getLast? r hr

/-- C5 (witness): undo of the empty fresh room is a silent no-op, and
undo of a one-stroke room pops that stroke onto the redo stack. -/
theorem undo_pops_tail_witness :
    (undo initRoomState = (initRoomState, none)) ∧
    (undo stateB).2 = some 0 :=
  ⟨(undo_pops_tail initRoomState).1 rfl,
   ((undo_pops_tail stateB).2 0 (by decide)).2.2.2.2.2.2⟩

theorem scenario_step (s : RoomState) (x : String) (r : Nat) (stroke : Action)
    (p : Point) (hm : mget s.currentStrokes x = some r)
    (hh : s.heap.get? r = some stroke) :
    mget (addStrokePoint s x p).1.currentStrokes x = some r ∧
    (addStrokePoint s x p).1.heap.get? r =
      some { stroke with points := stroke.points ++ [p] } ∧
    (addStrokePoint s x p).1.strokes = s.strokes := by
  rw [addStrokePoint_entry s x p r stroke hm hh]
  refine ⟨hm, ?_, rfl⟩
  exact get?_set_self _ _ _ (lt_length_of_get?_eq_some hh)

/-- C3 (counterexample): after author `X` starts a stroke, appends three
points and disconnects, `handleDisconnect` — which only calls
`roomManager.removeUser` — leaves `X`'s in-progress entry in
`currentStrokes`, so the entry is not removed at disconnect as the
claim states. -/
theorem disconnect_does_not_prune :
    ¬ (mget (handleDisconnect serverC3 "X").draw.currentStrokes "X" = none) := by
  decide

/-- C3 (amended): `handleDisconnect` touches only the registry and
leaves the drawing state — the in-progress map included — completely
unchanged, so the disconnecting author's entry stays in `inProgress`
(rather than being pruned); the stroke committed to the action log does
keep all its appended points unchanged, and stays in the log. -/
theorem disconnect_leaves_drawing_state (st : ServerState) (x : String)
    (s : RoomState) (sp : StartPoint) (fid : String) (now : Nat)
    (p1 p2 p3 : Point) :
    (handleDisconnect st x).draw = st.draw ∧
    mget (addStrokePoint (addStrokePoint (addStrokePoint
        (startStroke s x sp fid now).1 x p1).1 x p2).1 x p3).1.currentStrokes x
      = some s.heap.length ∧
    s.heap.length ∈ (addStrokePoint (addStrokePoint (addStrokePoint
        (startStroke s x sp fid now).1 x p1).1 x p2).1 x p3).1.strokes ∧
    (addStrokePoint (addStrokePoint (addStrokePoint
        (startStroke s x sp fid now).1 x p1).1 x p2).1 x p3).1.heap.get?
        s.heap.length
      = some { id := sp.strokeId.getD fid, userId := x,
               kind := ActionKind.stroke, points := [sp.point, p1, p2, p3],
               color := sp.color.getD "#000000", width := sp.width.getD 3,
               tool := sp.tool.getD "pencil", timestamp := now } := by
  have h1m : mget (startStroke s x sp fid now).1.currentStrokes x =
      some s.heap.length :=
    mget_mset_self s.currentStrokes x s.heap.length
  have h1h : (startStroke s x sp fid now).1.heap.get? s.heap.length =
      some (startStroke s x sp fid now).2 :=
    get?_concat_len s.heap (startStroke s x sp fid now).2
  have st1 := scenario_step (startStroke s x sp fid now).1 x s.heap.length
    (startStroke s x sp fid now).2 p1 h1m h1h
  have st2 := scenario_step (addStrokePoint (startStroke s x sp fid now).1 x p1).1
    x s.heap.length _ p2 st1.1 st1.2.1
  have st3 := scenario_step
    (addStrokePoint (addStrokePoint (startStroke s x sp fid now).1 x p1).1 x p2).1
    x s.heap.length _ p3 st2.1 st2.2.1
  refine ⟨rfl, st3.1, ?_, st3.2.1⟩
  rw [st3.2.2, st2.2.2, st1.2.2]
  exact List.mem_append_right _ (List.mem_singleton.mpr rfl)

/-- C4: undoing `n` times and then redoing `n` times, with no
intervening operation, restores the action log — the reference sequence
and the heap, hence every action with every field — to exactly its
pre-undo content; the whole room state is recovered except that the
version advanced by `2 * n`. -/
theorem undo_redo_roundtrip (s : RoomState) (n : Nat)
    (h : n ≤ s.strokes.length) :
    redoN (undoN s n) n = { s with version := s.version + 2 * n } ∧
    (redoN (undoN s n) n).strokes = s.strokes ∧
    (redoN (undoN s n) n).heap = s.heap ∧
    logActions (redoN (undoN s n) n) = logActions s := by
  have h1 := undoN_redoN_restore s n h
  refine ⟨h1, by rw [h1], by rw [h1], by rw [h1]; simp [logActions]⟩

/-- C4 (witness): the round trip at a one-stroke room with `n = 1`. -/
theorem undo_redo_roundtrip_witness :
    1 ≤ stateB.strokes.length ∧
    (redoN (undoN stateB 1) 1).strokes = stateB.strokes :=
  ⟨by decide, (undo_redo_roundtrip stateB 1 (by decide)).2.1⟩

/-- C6: in every reachable room state each author has at most one
in-progress entry; starting a new stroke leaves exactly one entry for
that author, bound to the freshly pushed stroke (last start wins); and
any earlier in-progress stroke of that author that sits in the action
log stays there with its heap content — its accumulated points —
untouched. -/
theorem in_progress_unique (s : RoomState) (hreach : Reachable s) (u : String)
    (sp : StartPoint) (fid : String) (now : Nat) :
    (s.currentStrokes.filter (fun e => e.1 = u)).length ≤ 1 ∧
    ((startStroke s u sp fid now).1.currentStrokes.filter
        (fun e => e.1 = u)).length = 1 ∧
    mget (startStroke s u sp fid now).1.currentStrokes u = some s.heap.length ∧
    (∀ r, mget s.currentStrokes u = some r → r ∈ s.strokes →
      r ∈ (startStroke s u sp fid now).1.strokes ∧
      (startStroke s u sp fid now).1.heap.get? r = s.heap.get? r) := by
  obtain ⟨hst, hun, hcur, hnd⟩ := reachable_wf hreach
  refine ⟨length_filter_key_le_one hnd u, ?_, mget_mset_self _ _ _, ?_⟩
  · have hnd' : ((mset s.currentStrokes u s.heap.length).map Prod.fst).Nodup :=
      keys_nodup_mset u s.heap.length hnd
    have hle := length_filter_key_le_one hnd' u
    have hmem : (u, s.heap.length) ∈ mset s.currentStrokes u s.heap.length :=
      mem_of_mget (mget_mset_self _ _ _)
    have hmemf : (u, s.heap.length) ∈
        (mset s.currentStrokes u s.heap.length).filter (fun e => e.1 = u) :=
      List.mem_filter.mpr ⟨hmem, by simp⟩
    have hge : 0 <
        ((mset s.currentStrokes u s.heap.length).filter
          (fun e => e.1 = u)).length :=
      List.length_pos.mpr (List.ne_nil_of_mem hmemf)
    exact Nat.le_antisymm hle hge
  · intro r hm hr
    constructor
    · exact List.mem_append_left _ hr
    · exact get?_append_left s.heap [(startStroke s u sp fid now).2] r (hst r hr)

/-- C6 (witness): starting a stroke in the (reachable) fresh room
leaves exactly one in-progress entry for the author, bound to the new
stroke. -/
theorem in_progress_unique_witness :
    ((startStroke initRoomState "u1" sampleStart "f1" 0).1.currentStrokes.filter
        (fun e => e.1 = "u1")).length = 1 ∧
    mget (startStroke initRoomState "u1" sampleStart "f1" 0).1.currentStrokes "u1"
      = some 0 :=
  ⟨(in_progress_unique initRoomState Relation.ReflTransGen.refl "u1" sampleStart
      "f1" 0).2.1,
   (in_progress_unique initRoomState Relation.ReflTransGen.refl "u1" sampleStart
      "f1" 0).2.2.1⟩

/-- C7: appending a point with no in-progress stroke for the author
returns `none` and leaves the room state untouched; with an in-progress
stroke it appends the point in place to that stroke's point list — the
same heap object the action log references — bumps the version, and
returns the stroke id with the point. -/
theorem append_point_contract (s : RoomState) (u : String) (p : Point) :
    (mget s.currentStrokes u = none → addStrokePoint s u p = (s, none)) ∧
    (∀ r stroke, mget s.currentStrokes u = some r →
      s.heap.get? r = some stroke →
      (addStrokePoint s u p).1 =
        { s with
            heap := s.heap.set r { stroke with points := stroke.points ++ [p] }
            version := s.version + 1 } ∧
      (addStrokePoint s u p).2 = some (stroke.id, p) ∧
      (addStrokePoint s u p).1.strokes = s.strokes ∧
      (addStrokePoint s u p).1.heap.get? r =
        some { stroke with points := stroke.points ++ [p] }) := by
  constructor
  · exact addStrokePoint_no_entry s u p
  · intro r stroke h1 h2
    rw [addStrokePoint_entry s u p r stroke h1 h2]
    refine ⟨rfl, rfl, rfl, ?_⟩
    exact get?_set_self _ _ _ (lt_length_of_get?_eq_some h2)

/-- C7 (witness): the silent-drop case in a fresh room and the append
case on a started stroke. -/
theorem append_point_contract_witness :
    (addStrokePoint initRoomState "u1" samplePoint = (initRoomState, none)) ∧
    (addStrokePoint stateB "u1" samplePoint2).2 = some ("s1", samplePoint2) :=
  ⟨(append_point_contract initRoomState "u1" samplePoint).1 rfl,
   ((append_point_contract stateB "u1" samplePoint2).2 0 sampleStroke
      (by decide) (by decide)).2.1⟩

/-- C8: joining a room whose membership size equals its capacity fails
with `RoomFull` before any mutation: the registry — membership set and
global user map alike — is returned unchanged and the connection is
registered nowhere. -/
theorem join_full_room_rejected (st : RegistryState) (sid roomId c n : String)
    (now : Nat) (room : Room) (h1 : mget st.rooms roomId = some room)
    (h2 : room.memberIds.length = room.maxUsers) :
    addUser st sid roomId c n now = (st, Except.error JoinError.roomFull) := by
  simp only [addUser, h1]
  rw [if_pos (le_of_eq h2.symm)]

/-- C8 (witness): a capacity-1 room with one member rejects the next
join and keeps the registry unchanged. -/
theorem join_full_room_rejected_witness :
    addUser regFullSample "C" "tiny" "#2ed573" "Artist2" 3
      = (regFullSample, Except.error JoinError.roomFull) :=
  join_full_room_rejected regFullSample "C" "tiny" "#2ed573" "Artist2" 3
    roomFullSample (by decide) (by decide)

/-- C9 (counterexample): after `X`'s first rename to `Alice` — which
set `isGuest := false` — a second rename message changes the display
name again, to `Bob`: renames are not limited to one. -/
theorem second_rename_changes_name :
    (mget regRenamed1.users "X").map User.isGuest = some false ∧
    (mget regRenamed1.users "X").map User.name = some "Alice" ∧
    (mget regRenamed2.users "X").map User.name = some "Bob" := by
  refine ⟨by decide, by decide, by decide⟩

theorem updateUserName_found (st : RegistryState) (sid nm : String) (u : User)
    (h : mget st.users sid = some u) :
    updateUserName st sid nm =
      ({ st with users := mset st.users sid { u with name := nm, isGuest := false } },
       some { u with name := nm, isGuest := false }) := by
  simp [updateUserName, h]

/-- C9 (amended): a rename message for a registered connection always
overwrites the display name and sets `isGuest := false`; nothing guards
against repeated renames — a second rename overwrites the name again. -/
theorem rename_always_applies (st : RegistryState) (sid n1 n2 : String)
    (u : User) (h : mget st.users sid = some u) :
    (updateUserName st sid n1).2 = some { u with name := n1, isGuest := false } ∧
    mget (updateUserName st sid n1).1.users sid =
      some { u with name := n1, isGuest := false } ∧
    mget (updateUserName (updateUserName st sid n1).1 sid n2).1.users sid =
      some { u with name := n2, isGuest := false } := by
  have e1 := updateUserName_found st sid n1 u h
  have hm1 : mget (updateUserName st sid n1).1.users sid =
      some { u with name := n1, isGuest := false } := by
    rw [e1]
    exact mget_mset_self _ _ _
  have e2 := updateUserName_found (updateUserName st sid n1).1 sid n2
    { u with name := n1, isGuest := false } hm1
  refine ⟨by rw [e1], hm1, ?_⟩
  rw [e2]
  exact mget_mset_self _ _ _

/-- C9 (witness): the two renames applied to the concrete registry
holding `X`. -/
theorem rename_always_applies_witness :
    mget (updateUserName (updateUserName regX "X" "Alice").1 "X" "Bob").1.users "X"
      = some { sampleUserX with name := "Bob", isGuest := false } :=
  (rename_always_applies regX "X" "Alice" "Bob" sampleUserX (by decide)).2.2

/-- C10: listing a room's members is total at the public interface: an
unknown room id yields the empty sequence, and every returned record is
a user actually present in the identity map — the `filter(Boolean)`
drops any stale connection id whose record is missing. -/
theorem room_users_total (st : RegistryState) (roomId : String) :
    (mget st.rooms roomId = none → getRoomUsers st roomId = []) ∧
    (∀ u ∈ getRoomUsers st roomId, ∃ sid, mget st.users sid = some u) := by
  constructor
  · intro h
    simp [getRoomUsers, h]
  · intro u hu
    cases hg : mget st.rooms roomId with
    | none =>
      simp only [getRoomUsers, hg] at hu
      exact absurd hu (List.not_mem_nil u)
    | some room =>
      simp only [getRoomUsers, hg] at hu
      rcases List.mem_filterMap.mp hu with ⟨sid, hmem, hsid⟩
      exact ⟨sid, hsid⟩

/-- C10 (witness): the empty result for an unknown room id, and a
member of the default room that is present in the identity map. -/
theorem room_users_total_witness :
    getRoomUsers regInit "missing" = [] ∧
    (∃ sid, mget regX.users sid = some sampleUserX) :=
  ⟨(room_users_total regInit "missing").1 (by decide),
   (room_users_total regX "default").2 sampleUserX (by decide)⟩

end FlamCanva
